import Mathlib

/-
Shallow embedding of `.github/workflows/resume_analyzer.py`.

Python strings are modelled as Lean `String`, with the operations the script
uses implemented over the underlying character list:
  - `str.lower()` becomes `lowerStr` (character-wise `Char.toLower`, which is
    exactly the ASCII lowercasing the script relies on for its catalog);
  - `needle in hay` becomes `pyContains` (contiguous-substring test);
  - string comparison in `sorted` keys becomes `strLe` (lexicographic by code
    point, as in Python).
Python dicts in insertion order are modelled as association lists:
the skills database `Dict[str, List[str]]` as `Catalog`, and the
`defaultdict(int)` of `analyze_skills` as `SkillCounts` (a key is inserted at
the end on its first increment, as CPython does).  `sorted` (a stable sort) is
modelled by `List.mergeSort`, which is also stable.  File-system access and
PDF decoding are external effects, passed in as explicit oracles.
-/

/-- Python `str.lower()`: character-wise lowercasing (`Char.toLower` performs
the ASCII mapping). -/
def lowerStr (s : String) : String := ⟨s.data.map Char.toLower⟩

/-- Contiguous-substring test on character lists, the semantics of the Python
`in` operator on strings: `subIn n h` holds when `n` occurs contiguously in
`h` (the empty needle occurs in everything). -/
def subIn (needle : List Char) : List Char → Bool
  | [] => needle.isEmpty
  | c :: t => needle.isPrefixOf (c :: t) || subIn needle t

/-- Python `needle in hay` on strings. -/
def pyContains (hay needle : String) : Bool := subIn needle.data hay.data

/-- Lexicographic comparison of character lists by code point: the semantics
of Python string `<=`, used through the `sorted` key in `generate_report`. -/
def strLe : List Char → List Char → Bool
  | [], _ => true
  | _ :: _, [] => false
  | a :: as, b :: bs => if a = b then strLe as bs else decide (a < b)

/-- A skills database: category name to ordered list of skill names, in dict
insertion order (`Dict[str, List[str]]` in the script). -/
abbrev Catalog := List (String × List String)

/-- The result mapping of `analyze_skills`: skill name to count, in dict
insertion order (`DefaultDict[str, int]` in the script). -/
abbrev SkillCounts := List (String × Nat)

/-- The `DEFAULT_SKILLS` constant of the script, verbatim. -/
def DEFAULT_SKILLS : Catalog :=
  [("Programming", ["Python", "Java", "C++", "JavaScript", "SQL", "R", "Go"]),
   ("Data", ["SQL", "NoSQL", "Spark", "Pandas", "Tableau", "PowerBI", "Excel"]),
   ("ML/AI", ["Machine Learning", "Deep Learning", "TensorFlow", "PyTorch", "NLP"]),
   ("DevOps", ["Docker", "Kubernetes", "AWS", "Azure", "CI/CD", "Terraform"]),
   ("Soft Skills", ["Leadership", "Communication", "Teamwork", "Problem Solving"])]

/-- `skill_counts[skill] += 1` on a `defaultdict(int)`: increment in place if
the key is present, otherwise append the key with value 1 (CPython inserts a
new key at the end of the iteration order). -/
def bump : SkillCounts → String → SkillCounts
  | [], s => [(s, 1)]
  | (k, v) :: rest, s => if k = s then (k, v + 1) :: rest else (k, v) :: bump rest s

/-- Reading `skill_counts[skill]` from the `defaultdict(int)`: the stored
value if the key is present, 0 otherwise. -/
def getCount (counts : SkillCounts) (s : String) : Nat :=
  match counts.find? (fun p => p.1 == s) with
  | some p => p.2
  | none => 0

/-- Python `s in skill_counts`: key membership. -/
def hasKey (counts : SkillCounts) (s : String) : Bool :=
  counts.any (fun p => p.1 == s)

/-- The per-skill test of `analyze_skills`: `skill.lower() in text`. -/
def matchesSkill (text skill : String) : Bool := pyContains text (lowerStr skill)

/-- `ResumeAnalyzer.analyze_skills`: for every category and every skill in it,
if `skill.lower() in text` then `skill_counts[skill] += 1`. -/
def analyze_skills (skills_db : Catalog) (text : String) : SkillCounts :=
  skills_db.foldl
    (fun counts ck =>
      ck.2.foldl (fun cs skill => if matchesSkill text skill then bump cs skill else cs) counts)
    []

/-- `ResumeAnalyzer.suggest_improvements`: per category, a missing-category
message when no skill of the category is a key of `skill_counts`, a
sparse-category message when fewer than two are, nothing otherwise. -/
def suggest_improvements (skills_db : Catalog) (skill_counts : SkillCounts) : List String :=
  skills_db.foldl
    (fun suggestions ck =>
      let found_skills := ck.2.filter (fun s => hasKey skill_counts s)
      if found_skills.isEmpty then
        suggestions ++
          ["⚠️ Missing " ++ ck.1 ++ " skills. Consider adding: " ++
            String.intercalate ", " (ck.2.take 3) ++ "..."]
      else if found_skills.length < 2 then
        suggestions ++
          ["ℹ️ Few " ++ ck.1 ++ " skills. Could add: " ++
            String.intercalate ", " ((ck.2.filter (fun s => !(found_skills.contains s))).take 2)]
      else suggestions)
    []

/-- One matched-skill line of the report:
`f"• {skill}: {count} mention{'s' if count > 1 else ''}"`. -/
def renderCount (p : String × Nat) : String :=
  "• " ++ p.1 ++ ": " ++ toString p.2 ++ " mention" ++ (if p.2 > 1 then "s" else "")

/-- The comparison realising the `sorted` key `lambda x: (-x[1], x[0])`:
tuples compare lexicographically, so descending count first, then ascending
skill name. -/
def countLe (a b : String × Nat) : Bool :=
  decide (b.2 < a.2) || ((a.2 == b.2) && strLe a.1.data b.1.data)

/-- The list of lines assembled by `ResumeAnalyzer.generate_report` before the
final `"\n".join`.  Python `sorted` is a stable sort, modelled by the stable
`List.mergeSort`. -/
def report_lines (skill_counts : SkillCounts) (suggestions : List String) : List String :=
  let report := ["\n=== SKILL ANALYSIS ==="]
  let report :=
    if skill_counts.isEmpty then
      report ++ ["No skills detected from the database"]
    else
      report ++ (skill_counts.mergeSort countLe).map renderCount
  if !suggestions.isEmpty then
    report ++ ["\n=== SUGGESTIONS ==="] ++ suggestions
  else
    report ++ ["\n✅ Good job! Your resume covers diverse skill categories."]

/-- `ResumeAnalyzer.generate_report`: the joined report string. -/
def generate_report (skill_counts : SkillCounts) (suggestions : List String) : String :=
  String.intercalate "\n" (report_lines skill_counts suggestions)

/-- The error values the script can raise that the claims talk about. -/
inductive PyErr where
  | fileNotFound (msg : String)
  | jsonDecodeError (msg : String)
deriving DecidableEq

/-- `ResumeAnalyzer.extract_text`.  The file system is an explicit oracle
`pathExists`; PDF decoding is the oracle `pageTexts` giving the text of each
page of the document at a path.  The script raises
`FileNotFoundError(f"File not found: {pdf_path}")` when the path does not
exist, and otherwise concatenates the page texts and lowercases the result. -/
def extract_text (pathExists : String → Bool) (pageTexts : String → List String)
    (pdf_path : String) : Except PyErr String :=
  if !(pathExists pdf_path) then
    Except.error (PyErr.fileNotFound ("File not found: " ++ pdf_path))
  else
    Except.ok (lowerStr (String.join (pageTexts pdf_path)))

/-- JSON values, for the skills-file loading path. -/
inductive JValue where
  | null
  | bool (b : Bool)
  | num (n : Int)
  | str (s : String)
  | arr (xs : List JValue)
  | obj (kvs : List (String × JValue))

/-- The loading of a supplied skills file in `main`:
`json.load(open(args.skills))`.  The external JSON parser is modelled by the
argument: `none` stands for a syntactically invalid document, on which
`json.load` raises `JSONDecodeError`; `some v` stands for a document parsing
to `v`.  The script performs no shape validation on the parsed value. -/
def load_supplied_skills (parsed : Option JValue) : Except PyErr JValue :=
  match parsed with
  | none => Except.error (PyErr.jsonDecodeError "Expecting value")
  | some v => Except.ok v

/-- Modelled from the spec: a category-to-skill-list mapping, the shape the
spec says a supplied skills file must have (an object whose values are all
arrays of strings).  The script itself never checks this. -/
def isCatalogShape : JValue → Bool
  | JValue.obj kvs =>
      kvs.all fun kv =>
        match kv.2 with
        | JValue.arr xs =>
            xs.all fun x =>
              match x with
              | JValue.str _ => true
              | _ => false
        | _ => false
  | _ => false

/-- The case-insensitive-substring relation the spec states claims with:
the lowercased needle occurs in the lowercased haystack. -/
def ciSubstr (needle hay : String) : Bool :=
  pyContains (lowerStr hay) (lowerStr needle)

/-- The per-category suggestion content as the spec describes it, keyed by how
many of the category skills are keys of the counts mapping. -/
def categorySuggestion (skill_counts : SkillCounts) (ck : String × List String) : List String :=
  let present := (ck.2.filter (fun s => hasKey skill_counts s)).length
  if present = 0 then
    ["⚠️ Missing " ++ ck.1 ++ " skills. Consider adding: " ++
      String.intercalate ", " (ck.2.take 3) ++ "..."]
  else if present = 1 then
    ["ℹ️ Few " ++ ck.1 ++ " skills. Could add: " ++
      String.intercalate ", " ((ck.2.filter (fun s => !(hasKey skill_counts s))).take 2)]
  else []

theorem char_toNat_ofNat (n : Nat) (hv : Nat.isValidChar n) : (Char.ofNat n).toNat = n := by
  unfold Char.ofNat
  rw [dif_pos hv]
  rfl

theorem charToLower_idem (c : Char) : Char.toLower (Char.toLower c) = Char.toLower c := by
  unfold Char.toLower
  by_cases h : c.toNat ≥ 65 ∧ c.toNat ≤ 90
  · rw [if_pos h]
    have hv : Nat.isValidChar (c.toNat + 32) := Or.inl (by omega)
    have ht : (Char.ofNat (c.toNat + 32)).toNat = c.toNat + 32 := char_toNat_ofNat _ hv
    rw [if_neg]
    rw [ht]
    omega
  · rw [if_neg h, if_neg h]

theorem isPrefixOf_map (f : Char → Char) (n : List Char) :
    ∀ h : List Char, n.isPrefixOf h = true → (n.map f).isPrefixOf (h.map f) = true := by
  induction n with
  | nil => intro h _; simp [List.isPrefixOf]
  | cons a as ih =>
    intro h hp
    cases h with
    | nil => exact absurd hp (by simp [List.isPrefixOf])
    | cons b bs =>
      simp only [List.isPrefixOf, Bool.and_eq_true, beq_iff_eq] at hp
      simp only [List.map_cons, List.isPrefixOf, Bool.and_eq_true, beq_iff_eq]
      exact ⟨congrArg f hp.1, ih bs hp.2⟩

theorem subIn_map (f : Char → Char) (n : List Char) :
    ∀ h : List Char, subIn n h = true → subIn (n.map f) (h.map f) = true := by
  intro h
  induction h with
  | nil =>
    intro hs
    simp only [subIn, List.isEmpty_iff] at hs
    subst hs
    rfl
  | cons c t ih =>
    intro hs
    simp only [subIn, Bool.or_eq_true] at hs
    rcases hs with hs | hs
    · simp only [List.map_cons, subIn, Bool.or_eq_true]
      left
      have := isPrefixOf_map f n (c :: t) hs
      simpa using this
    · simp only [List.map_cons, subIn, Bool.or_eq_true]
      right
      exact ih hs

theorem getCount_cons (k : String) (v : Nat) (rest : SkillCounts) (s : String) :
    getCount ((k, v) :: rest) s = if k = s then v else getCount rest s := by
  by_cases h : k = s
  · have hb : (k == s) = true := beq_iff_eq.mpr h
    simp only [getCount, List.find?_cons, hb, if_pos h]
  · have hb : (k == s) = false := by simp [h]
    simp only [getCount, List.find?_cons, hb, if_neg h]

theorem getCount_bump_self (cs : SkillCounts) (s : String) :
    getCount (bump cs s) s = getCount cs s + 1 := by
  induction cs with
  | nil => simp [bump, getCount_cons, getCount]
  | cons p rest ih =>
    obtain ⟨k, v⟩ := p
    by_cases h : k = s
    · subst h
      simp [bump, getCount_cons]
    · simp [bump, h, getCount_cons, ih]

theorem getCount_bump_ne (cs : SkillCounts) (s t : String) (h : s ≠ t) :
    getCount (bump cs s) t = getCount cs t := by
  induction cs with
  | nil => simp [bump, getCount_cons, getCount, h]
  | cons p rest ih =>
    obtain ⟨k, v⟩ := p
    by_cases hk : k = s
    · subst hk
      simp [bump, getCount_cons, h]
    · simp [bump, hk, getCount_cons, ih]

theorem getCount_fold_skills (text : String) (skills : List String) (cs : SkillCounts) (t : String) :
    getCount (skills.foldl (fun c s => if matchesSkill text s then bump c s else c) cs) t
      = getCount cs t + (if matchesSkill text t then List.count t skills else 0) := by
  induction skills generalizing cs with
  | nil => simp
  | cons s rest ih =>
    rw [List.foldl_cons, ih]
    by_cases hst : s = t
    · subst hst
      by_cases hm : matchesSkill text s
      · simp [hm, getCount_bump_self, List.count_cons]
        omega
      · simp [hm]
    · by_cases hm : matchesSkill text s
      · simp [hm, getCount_bump_ne cs s t hst, List.count_cons, hst]
      · simp [hm, List.count_cons, hst]

theorem getCount_fold_db (text : String) (db : Catalog) (cs : SkillCounts) (t : String) :
    getCount (db.foldl
        (fun counts ck =>
          ck.2.foldl (fun c s => if matchesSkill text s then bump c s else c) counts) cs) t
      = getCount cs t + (if matchesSkill text t then List.count t (db.flatMap Prod.snd) else 0) := by
  induction db generalizing cs with
  | nil => simp
  | cons ck rest ih =>
    rw [List.foldl_cons, ih, getCount_fold_skills]
    rw [List.flatMap_cons, List.count_append]
    by_cases hm : matchesSkill text t
    · simp only [if_pos hm]
      omega
    · simp only [if_neg hm]

/-- Claim C1, amended.  The count `analyze_skills` assigns to a skill equals,
when the lowercased skill name occurs in the text, the number of times the
skill name is listed across all categories of the catalog, and 0 otherwise.
A skill listed in two categories is therefore counted twice when present, not
once, and the value is restricted to 0 or 1 only for catalogs in which no
skill name repeats across categories. -/
theorem analyze_skills_count_characterisation (skills_db : Catalog) (text skill : String) :
    getCount (analyze_skills skills_db text) skill
      = if matchesSkill text skill then List.count skill (skills_db.flatMap Prod.snd) else 0 := by
  unfold analyze_skills
  rw [getCount_fold_db]
  simp [getCount]

/-- Claim C1, counterexample.  The default catalog lists SQL under both
Programming and Data, so on the text "sql" the matcher assigns SQL the value
2, which is neither 0 nor 1: the claim that a skill listed in two categories
is counted once fails on the code. -/
theorem analyze_skills_sql_counted_twice :
    analyze_skills DEFAULT_SKILLS "sql" = [("SQL", 2)] ∧
    getCount (analyze_skills DEFAULT_SKILLS "sql") "SQL" = 2 := by
  constructor
  · decide
  · decide

theorem hasKey_cons (k : String) (v : Nat) (rest : SkillCounts) (t : String) :
    hasKey ((k, v) :: rest) t = ((k == t) || hasKey rest t) := by
  simp [hasKey, List.any_cons]

theorem hasKey_bump (cs : SkillCounts) (s t : String) :
    hasKey (bump cs s) t = (hasKey cs t || (s == t)) := by
  induction cs with
  | nil => simp [bump, hasKey]
  | cons p rest ih =>
    obtain ⟨k, v⟩ := p
    by_cases h : k = s
    · subst h
      rw [bump, if_pos rfl, hasKey_cons, hasKey_cons]
      cases hkt : (k == t)
      · simp [hkt]
      · simp [hkt]
    · rw [bump, if_neg h, hasKey_cons, hasKey_cons, ih, Bool.or_assoc]

theorem hasKey_fold_skills (text : String) (skills : List String) (cs : SkillCounts) (t : String) :
    hasKey (skills.foldl (fun c s => if matchesSkill text s then bump c s else c) cs) t
      = (hasKey cs t || (matchesSkill text t && skills.contains t)) := by
  induction skills generalizing cs with
  | nil => simp
  | cons s rest ih =>
    rw [List.foldl_cons, ih, List.contains_cons]
    by_cases hst : s = t
    · subst hst
      by_cases hm : matchesSkill text s
      · rw [if_pos hm, hasKey_bump]
        simp [hm]
      · rw [if_neg hm]
        simp [hm]
    · have hbst : (t == s) = false := by simp [Ne.symm hst]
      by_cases hm : matchesSkill text s
      · rw [if_pos hm, hasKey_bump]
        have : (s == t) = false := by simp [hst]
        simp [this, hbst]
      · rw [if_neg hm]
        simp [hbst]

theorem contains_append_str (l₁ l₂ : List String) (a : String) :
    (l₁ ++ l₂).contains a = (l₁.contains a || l₂.contains a) := by
  induction l₁ with
  | nil => simp
  | cons x xs ih => simp [List.contains_cons, ih, Bool.or_assoc]

theorem hasKey_analyze (skills_db : Catalog) (text t : String) :
    hasKey (analyze_skills skills_db text) t
      = (matchesSkill text t && (skills_db.flatMap Prod.snd).contains t) := by
  unfold analyze_skills
  have aux : ∀ (db : Catalog) (cs : SkillCounts),
      hasKey (db.foldl
        (fun counts ck =>
          ck.2.foldl (fun c s => if matchesSkill text s then bump c s else c) counts) cs) t
      = (hasKey cs t || (matchesSkill text t && (db.flatMap Prod.snd).contains t)) := by
    intro db
    induction db with
    | nil => intro cs; simp
    | cons ck rest ih =>
      intro cs
      rw [List.foldl_cons, ih, hasKey_fold_skills, List.flatMap_cons,
        contains_append_str, Bool.and_or_distrib_left, Bool.or_assoc]
  rw [aux]
  simp [hasKey]

/-- Claim C5.  For every catalog and every text, if a skill name is not,
case-insensitively, a substring of the text, then that skill name is not a
key of the result of `analyze_skills`. -/
theorem analyze_skills_no_substring_no_key (skills_db : Catalog) (text skill : String)
    (h : ciSubstr skill text = false) :
    hasKey (analyze_skills skills_db text) skill = false := by
  rw [hasKey_analyze]
  cases hm : matchesSkill text skill
  · simp
  · exfalso
    have hm' : subIn (lowerStr skill).data text.data = true := hm
    have h2 := subIn_map Char.toLower _ _ hm'
    have hfix : (lowerStr skill).data.map Char.toLower = (lowerStr skill).data := by
      show (skill.data.map Char.toLower).map Char.toLower = skill.data.map Char.toLower
      rw [List.map_map]
      exact List.map_congr_left (fun a _ => charToLower_idem a)
    rw [hfix] at h2
    have : ciSubstr skill text = true := h2
    rw [this] at h
    exact Bool.true_eq_false ▸ h

theorem analyze_skills_no_substring_no_key_witness :
    ciSubstr "Docker" "python resume" = false ∧
    hasKey (analyze_skills DEFAULT_SKILLS "python resume") "Docker" = false :=
  ⟨by decide, analyze_skills_no_substring_no_key DEFAULT_SKILLS "python resume" "Docker" (by decide)⟩

theorem matchesSkill_empty_text (s : String) (hs : s ≠ "") : matchesSkill "" s = false := by
  cases hd : s.data with
  | nil => exact absurd (String.ext (hd.trans rfl)) hs
  | cons c t =>
    show subIn (s.data.map Char.toLower) ("".data) = false
    rw [hd]
    rfl

theorem fold_skills_no_match (text : String) (skills : List String) (cs : SkillCounts)
    (h : ∀ s ∈ skills, matchesSkill text s = false) :
    skills.foldl (fun c s => if matchesSkill text s then bump c s else c) cs = cs := by
  induction skills generalizing cs with
  | nil => rfl
  | cons s rest ih =>
    rw [List.foldl_cons]
    have h0 : matchesSkill text s = false := h s (List.mem_cons_self s rest)
    rw [if_neg (by simp [h0])]
    exact ih cs (fun u hu => h u (List.mem_cons_of_mem s hu))

/-- Claim C8, amended.  For every catalog whose skill names are all
non-empty, the matcher applied to the empty text returns the empty mapping.
The restriction is forced by the counterexample below: an empty skill name is
a substring of the empty text, so a catalog listing it produces a non-empty
result. -/
theorem analyze_skills_empty_text_empty (skills_db : Catalog)
    (h : ∀ ck ∈ skills_db, ∀ s ∈ ck.2, s ≠ "") :
    analyze_skills skills_db "" = [] := by
  unfold analyze_skills
  induction skills_db with
  | nil => rfl
  | cons ck rest ih =>
    rw [List.foldl_cons]
    rw [fold_skills_no_match "" ck.2 []
      (fun s hs => matchesSkill_empty_text s (h ck (List.mem_cons_self ck rest) s hs))]
    exact ih (fun c hc s hs => h c (List.mem_cons_of_mem ck hc) s hs)

theorem analyze_skills_empty_text_empty_witness :
    analyze_skills DEFAULT_SKILLS "" = [] :=
  analyze_skills_empty_text_empty DEFAULT_SKILLS (by decide)

/-- Claim C8, counterexample.  A catalog containing the empty skill name
defeats the claim as stated for every catalog: on the empty text the matcher
returns a non-empty mapping. -/
theorem analyze_skills_empty_text_empty_skill_matches :
    analyze_skills [("X", [""])] "" = [("", 1)] ∧ analyze_skills [("X", [""])] "" ≠ [] := by
  constructor
  · decide
  · decide

theorem strLe_nil (b : List Char) : strLe [] b = true := by cases b <;> rfl

theorem strLe_cons_cons (x y : Char) (xs ys : List Char) :
    strLe (x :: xs) (y :: ys) = if x = y then strLe xs ys else decide (x < y) := rfl

theorem strLe_total (a b : List Char) : strLe a b = true ∨ strLe b a = true := by
  induction a generalizing b with
  | nil => left; exact strLe_nil b
  | cons x xs ih =>
    cases b with
    | nil => right; exact strLe_nil _
    | cons y ys =>
      rw [strLe_cons_cons, strLe_cons_cons]
      by_cases hxy : x = y
      · subst hxy
        rw [if_pos rfl, if_pos rfl]
        exact ih ys
      · rw [if_neg hxy, if_neg (Ne.symm hxy)]
        rcases lt_trichotomy x y with h | h | h
        · left; exact decide_eq_true h
        · exact absurd h hxy
        · right; exact decide_eq_true h

theorem strLe_trans (a b c : List Char) (h1 : strLe a b = true) (h2 : strLe b c = true) :
    strLe a c = true := by
  induction a generalizing b c with
  | nil => exact strLe_nil c
  | cons x xs ih =>
    cases b with
    | nil => exact absurd h1 (by simp [strLe])
    | cons y ys =>
      cases c with
      | nil => exact absurd h2 (by simp [strLe])
      | cons z zs =>
        rw [strLe_cons_cons] at h1 h2 ⊢
        by_cases hxy : x = y <;> by_cases hyz : y = z
        · subst hxy; subst hyz
          rw [if_pos rfl] at h1 h2 ⊢
          exact ih ys zs h1 h2
        · subst hxy
          rw [if_pos rfl] at h1
          rw [if_neg hyz] at h2 ⊢
          exact h2
        · subst hyz
          rw [if_neg hxy] at h1 ⊢
          exact h1
        · rw [if_neg hxy] at h1
          rw [if_neg hyz] at h2
          have hxz : x < z := lt_trans (of_decide_eq_true h1) (of_decide_eq_true h2)
          rw [if_neg (ne_of_lt hxz)]
          exact decide_eq_true hxz

theorem strLe_iff_eq_or_lex (a b : List Char) :
    strLe a b = true ↔ a = b ∨ List.Lex (· < ·) a b := by
  induction a generalizing b with
  | nil =>
    cases b with
    | nil => simp [strLe]
    | cons y ys =>
      constructor
      · intro _; right; exact List.Lex.nil
      · intro _; exact strLe_nil _
  | cons x xs ih =>
    cases b with
    | nil =>
      constructor
      · intro h; exact absurd h (by simp [strLe])
      · rintro (h | h)
        · exact absurd h (by simp)
        · cases h
    | cons y ys =>
      rw [strLe_cons_cons]
      by_cases hxy : x = y
      · subst hxy
        rw [if_pos rfl, ih]
        constructor
        · rintro (rfl | h)
          · left; rfl
          · right; exact List.Lex.cons h
        · rintro (h | h)
          · left; exact (List.cons.injEq _ _ _ _ ▸ h).2
          · cases h with
            | cons h => right; exact h
            | rel h => exact absurd h (lt_irrefl x)
      · rw [if_neg hxy]
        constructor
        · intro h
          right
          exact List.Lex.rel (of_decide_eq_true h)
        · rintro (h | h)
          · exact absurd (List.cons.injEq _ _ _ _ ▸ h).1 hxy
          · cases h with
            | cons h => exact absurd rfl hxy
            | rel h => exact decide_eq_true h

theorem countLe_trans (a b c : String × Nat)
    (h1 : countLe a b = true) (h2 : countLe b c = true) : countLe a c = true := by
  unfold countLe at h1 h2 ⊢
  simp only [Bool.or_eq_true, decide_eq_true_eq, Bool.and_eq_true, beq_iff_eq] at h1 h2 ⊢
  rcases h1 with h1 | ⟨he1, hs1⟩ <;> rcases h2 with h2 | ⟨he2, hs2⟩
  · left; omega
  · left; omega
  · left; omega
  · right; exact ⟨he1.trans he2, strLe_trans _ _ _ hs1 hs2⟩

theorem countLe_total (a b : String × Nat) : (countLe a b || countLe b a) = true := by
  rw [Bool.or_eq_true]
  unfold countLe
  simp only [Bool.or_eq_true, decide_eq_true_eq, Bool.and_eq_true, beq_iff_eq]
  rcases Nat.lt_trichotomy a.2 b.2 with h | h | h
  · right; left; exact h
  · rcases strLe_total a.1.data b.1.data with hs | hs
    · left; right; exact ⟨h, hs⟩
    · right; right; exact ⟨h.symm, hs⟩
  · left; left; exact h

theorem countLe_eq_true_iff (a b : String × Nat) :
    countLe a b = true ↔
      b.2 < a.2 ∨ (a.2 = b.2 ∧ (a.1 = b.1 ∨ List.Lex (· < ·) a.1.data b.1.data)) := by
  unfold countLe
  simp only [Bool.or_eq_true, decide_eq_true_eq, Bool.and_eq_true, beq_iff_eq,
    strLe_iff_eq_or_lex]
  rw [← String.ext_iff]

theorem report_lines_nonempty (skill_counts : SkillCounts) (suggestions : List String)
    (h : skill_counts ≠ []) :
    report_lines skill_counts suggestions =
      "\n=== SKILL ANALYSIS ===" :: (skill_counts.mergeSort countLe).map renderCount
        ++ (if suggestions.isEmpty then
              ["\n✅ Good job! Your resume covers diverse skill categories."]
            else "\n=== SUGGESTIONS ===" :: suggestions) := by
  unfold report_lines
  have he : skill_counts.isEmpty = false := List.isEmpty_eq_false.mpr h
  rw [he]
  by_cases hs : suggestions.isEmpty
  · simp [hs]
  · have hs' : suggestions.isEmpty = false := by
      cases hb : suggestions.isEmpty
      · rfl
      · exact absurd hb hs
    simp [hs']

/-- Claim C4.  For a non-empty counts mapping, `generate_report` renders one
line per matched skill: the lines are the rendering of a permutation of the
counts entries ordered by descending count and, for equal counts, ascending
skill name (lexicographically by code point), and each line is the skill
name, its count, and the word mention pluralized with an s exactly when the
count exceeds 1. -/
theorem generate_report_line_order (skill_counts : SkillCounts) (suggestions : List String)
    (h : skill_counts ≠ []) :
    (skill_counts.mergeSort countLe).Perm skill_counts
    ∧ (skill_counts.mergeSort countLe).Pairwise
        (fun a b => b.2 < a.2 ∨ (a.2 = b.2 ∧ (a.1 = b.1 ∨ List.Lex (· < ·) a.1.data b.1.data)))
    ∧ report_lines skill_counts suggestions =
        "\n=== SKILL ANALYSIS ===" :: (skill_counts.mergeSort countLe).map renderCount
          ++ (if suggestions.isEmpty then
                ["\n✅ Good job! Your resume covers diverse skill categories."]
              else "\n=== SUGGESTIONS ===" :: suggestions)
    ∧ ∀ p ∈ skill_counts.mergeSort countLe,
        renderCount p =
          "• " ++ p.1 ++ ": " ++ toString p.2 ++ " mention" ++ (if p.2 > 1 then "s" else "") := by
  refine ⟨List.mergeSort_perm skill_counts countLe, ?_, report_lines_nonempty _ _ h, ?_⟩
  · exact (List.sorted_mergeSort countLe_trans countLe_total skill_counts).imp
      (fun hab => (countLe_eq_true_iff _ _).mp hab)
  · intro p _
    rfl

theorem generate_report_line_order_witness :
    (([("SQL", 2)] : SkillCounts) ≠ []) ∧
    ((([("SQL", 2)] : SkillCounts).mergeSort countLe).Perm [("SQL", 2)]
    ∧ (([("SQL", 2)] : SkillCounts).mergeSort countLe).Pairwise
        (fun a b => b.2 < a.2 ∨ (a.2 = b.2 ∧ (a.1 = b.1 ∨ List.Lex (· < ·) a.1.data b.1.data)))
    ∧ report_lines [("SQL", 2)] [] =
        "\n=== SKILL ANALYSIS ===" :: (([("SQL", 2)] : SkillCounts).mergeSort countLe).map renderCount
          ++ (if ([] : List String).isEmpty then
                ["\n✅ Good job! Your resume covers diverse skill categories."]
              else "\n=== SUGGESTIONS ===" :: ([] : List String))
    ∧ ∀ p ∈ ([("SQL", 2)] : SkillCounts).mergeSort countLe,
        renderCount p =
          "• " ++ p.1 ++ ": " ++ toString p.2 ++ " mention" ++ (if p.2 > 1 then "s" else "")) :=
  ⟨by decide, generate_report_line_order [("SQL", 2)] [] (by decide)⟩

/-- Claim C9.  The report formatter applied to an empty counts mapping and an
empty suggestion list produces a report containing both the no-skills-detected
line and the congratulatory line. -/
theorem generate_report_empty_inputs_lines :
    "No skills detected from the database" ∈ report_lines [] []
    ∧ "\n✅ Good job! Your resume covers diverse skill categories." ∈ report_lines [] []
    ∧ pyContains (generate_report [] []) "No skills detected from the database" = true
    ∧ pyContains (generate_report [] [])
        "\n✅ Good job! Your resume covers diverse skill categories." = true := by
  refine ⟨?_, ?_, ?_, ?_⟩
  · decide
  · decide
  · decide
  · decide

theorem contains_filter_of_mem (skills : List String) (p : String → Bool) (s : String)
    (hs : s ∈ skills) : (skills.filter p).contains s = p s := by
  cases hp : p s
  · cases hc : (skills.filter p).contains s
    · rfl
    · exfalso
      have hm : s ∈ skills.filter p := List.elem_iff.mp hc
      have := (List.mem_filter.mp hm).2
      rw [hp] at this
      exact Bool.false_ne_true this
  · exact List.elem_iff.mpr (List.mem_filter.mpr ⟨hs, hp⟩)

theorem filter_not_found_eq (skill_counts : SkillCounts) (skills : List String) :
    skills.filter (fun s => !((skills.filter (fun u => hasKey skill_counts u)).contains s))
      = skills.filter (fun s => !(hasKey skill_counts s)) :=
  List.filter_congr
    (fun s hs => by rw [contains_filter_of_mem skills _ s hs])

theorem suggest_step_eq (skill_counts : SkillCounts) (suggestions : List String)
    (ck : String × List String) :
    (let found_skills := ck.2.filter (fun s => hasKey skill_counts s)
     if found_skills.isEmpty then
       suggestions ++
         ["⚠️ Missing " ++ ck.1 ++ " skills. Consider adding: " ++
           String.intercalate ", " (ck.2.take 3) ++ "..."]
     else if found_skills.length < 2 then
       suggestions ++
         ["ℹ️ Few " ++ ck.1 ++ " skills. Could add: " ++
           String.intercalate ", " ((ck.2.filter (fun s => !(found_skills.contains s))).take 2)]
     else suggestions)
    = suggestions ++ categorySuggestion skill_counts ck := by
  show (if (ck.2.filter (fun s => hasKey skill_counts s)).isEmpty then _ else _) = _
  by_cases h0 : (ck.2.filter (fun s => hasKey skill_counts s)).isEmpty
  · have hl : (ck.2.filter (fun s => hasKey skill_counts s)).length = 0 :=
      List.length_eq_zero.mpr (List.isEmpty_iff.mp h0)
    rw [if_pos h0]
    unfold categorySuggestion
    rw [hl]
    rfl
  · have hl : (ck.2.filter (fun s => hasKey skill_counts s)).length ≠ 0 := by
      intro hc
      exact h0 (List.isEmpty_iff.mpr (List.length_eq_zero.mp hc))
    rw [if_neg h0]
    by_cases h1 : (ck.2.filter (fun s => hasKey skill_counts s)).length < 2
    · have hone : (ck.2.filter (fun s => hasKey skill_counts s)).length = 1 := by omega
      rw [if_pos h1]
      unfold categorySuggestion
      rw [hone, filter_not_found_eq]
      rfl
    · rw [if_neg h1]
      unfold categorySuggestion
      have h2 : (ck.2.filter (fun s => hasKey skill_counts s)).length ≠ 1 := by omega
      rw [if_neg hl, if_neg h2, List.append_nil]

theorem foldl_append_of_step {α β : Type} (f : List β → α → List β) (g : α → List β)
    (hf : ∀ acc x, f acc x = acc ++ g x) :
    ∀ (l : List α) (init : List β), l.foldl f init = init ++ l.flatMap g := by
  intro l
  induction l with
  | nil => intro init; simp
  | cons x xs ih =>
    intro init
    rw [List.foldl_cons, hf, ih, List.flatMap_cons, List.append_assoc]

theorem suggest_improvements_eq_flatMap (skills_db : Catalog) (skill_counts : SkillCounts) :
    suggest_improvements skills_db skill_counts
      = skills_db.flatMap (categorySuggestion skill_counts) := by
  unfold suggest_improvements
  rw [foldl_append_of_step _ (categorySuggestion skill_counts)
    (fun acc ck => suggest_step_eq skill_counts acc ck) skills_db []]
  rfl

/-- Claim C2.  Per category, in the iteration order of the catalog,
`suggest_improvements` emits: a missing-category suggestion naming up to the
first 3 skills of the category when none of its skills is a key of the counts
mapping; a sparse-category suggestion naming up to the first 2 of its skills
that are not keys when exactly 1 of its skills is a key; and no suggestion
when 2 or more are keys.  The sparse-category candidate list never contains a
skill that is a key of the counts mapping. -/
theorem suggest_improvements_per_category (skills_db : Catalog) (skill_counts : SkillCounts) :
    suggest_improvements skills_db skill_counts
      = skills_db.flatMap (categorySuggestion skill_counts)
    ∧ ∀ ck ∈ skills_db, ∀ s ∈ (ck.2.filter (fun u => !(hasKey skill_counts u))).take 2,
        hasKey skill_counts s = false := by
  refine ⟨suggest_improvements_eq_flatMap _ _, ?_⟩
  intro ck _ s hs
  have hmem := List.mem_filter.mp (List.mem_of_mem_take hs)
  have := hmem.2
  cases hk : hasKey skill_counts s
  · rfl
  · rw [hk] at this
    exact absurd this (by decide)

/-- Claim C10.  For every catalog and every two counts mappings with the same
keys, `suggest_improvements` produces identical suggestion lists: only key
membership influences the output, never the numeric count values. -/
theorem suggest_improvements_depends_only_on_keys (skills_db : Catalog)
    (counts₁ counts₂ : SkillCounts)
    (h : ∀ s : String, hasKey counts₁ s = hasKey counts₂ s) :
    suggest_improvements skills_db counts₁ = suggest_improvements skills_db counts₂ := by
  rw [suggest_improvements_eq_flatMap, suggest_improvements_eq_flatMap]
  have hg : categorySuggestion counts₁ = categorySuggestion counts₂ := by
    funext ck
    simp only [categorySuggestion, h]
  rw [hg]

theorem suggest_improvements_depends_only_on_keys_witness :
    suggest_improvements DEFAULT_SKILLS [("Python", 1)]
      = suggest_improvements DEFAULT_SKILLS [("Python", 7)] :=
  suggest_improvements_depends_only_on_keys DEFAULT_SKILLS [("Python", 1)] [("Python", 7)]
    (fun _ => rfl)

/-- Claim C6.  For every path that does not exist on the file system,
`extract_text` fails with a not-found error naming the path, and does so
independently of the PDF decoding oracle: no decoding is consulted. -/
theorem extract_text_missing_path (pathExists : String → Bool) (pdf_path : String)
    (h : pathExists pdf_path = false) :
    ∀ pageTexts : String → List String,
      extract_text pathExists pageTexts pdf_path
        = Except.error (PyErr.fileNotFound ("File not found: " ++ pdf_path)) := by
  intro pageTexts
  unfold extract_text
  rw [h]
  rfl

theorem extract_text_missing_path_witness :
    ((fun _ : String => false) "resume.pdf" = false) ∧
    extract_text (fun _ => false) (fun _ => ["resume text"]) "resume.pdf"
      = Except.error (PyErr.fileNotFound ("File not found: " ++ "resume.pdf")) :=
  ⟨rfl, extract_text_missing_path (fun _ => false) "resume.pdf" rfl (fun _ => ["resume text"])⟩

/-- Claim C7, counterexample.  A well-formed JSON document whose shape is not
a category-to-skill-list mapping (an empty array) is accepted unchanged by
the supplied-skills loading step, with no ParseError: the claim that every
malformed input fails at load time is false on the code. -/
theorem load_supplied_skills_accepts_malformed_shape :
    isCatalogShape (JValue.arr []) = false
    ∧ load_supplied_skills (some (JValue.arr [])) = Except.ok (JValue.arr []) :=
  ⟨rfl, rfl⟩

/-- Claim C7, amended.  When a skills-file path is supplied, loading fails
with a parse error exactly on syntactically invalid JSON; every well-formed
document is accepted unchanged as the skills database, even when its shape is
not a category-to-skill-list mapping, the shape never being validated at load
time. -/
theorem load_supplied_skills_accepts_any_wellformed_json (v : JValue)
    (_h : isCatalogShape v = false) :
    load_supplied_skills (some v) = Except.ok v
    ∧ load_supplied_skills none = Except.error (PyErr.jsonDecodeError "Expecting value") :=
  ⟨rfl, rfl⟩

theorem load_supplied_skills_accepts_any_wellformed_json_witness :
    isCatalogShape (JValue.str "not a catalog") = false
    ∧ (load_supplied_skills (some (JValue.str "not a catalog"))
        = Except.ok (JValue.str "not a catalog")
      ∧ load_supplied_skills none = Except.error (PyErr.jsonDecodeError "Expecting value")) :=
  ⟨rfl, load_supplied_skills_accepts_any_wellformed_json (JValue.str "not a catalog") rfl⟩
